import Mathlib

/-!
Verification of the treecat repository (src/treecat/training.py and
src/treecat/serving.py) against its natural-language specification.

The development shallowly embeds the data model and operations of the two
source files:

* sufficient statistics and their incremental add/remove bookkeeping
  (TreeCatTrainer._update_tensors, add_row, remove_row);
* the sequential Polya-urn evidence fold shared by training and serving;
* posterior construction (serving.make_posterior) over an exact field;
* the serving message-passing engine (TreeCatServer._propagate);
* the training-side log probability (TreeCatTrainer.logprob) and the
  sample_tree edge-logit computation, with log-gamma embedded exactly as
  Real.log of Real.Gamma;
* the subsample-annealing schedule generator (get_annealing_schedule).

Machine floats of the source are embedded as exact arithmetic (a field,
instantiated at the rationals or the reals); the int8 data conversion of
TreeCatTrainer.__init__ is embedded with its wraparound explicit.
External collaborators (treecat.structure, treecat.util) are parameters:
the tree grid, the propagation schedule, the categorical and multinomial
draws appear as function arguments.
-/

namespace TreeCat

/-! ### The sequential Polya-urn evidence fold

Shared by the upward pass of serving.TreeCatServer._propagate
(lines 102-109) and training.TreeCatTrainer.add_row (lines 124-131):
a per-cluster message, a running category-by-cluster table and its
per-cluster column sum, updated one observed count unit at a time. -/

/-- State of the sequential evidence fold-in: the message for the current
vertex, the running table (obs_lat) and its per-cluster column sum (lat). -/
@[ext]
structure PolyaState (C M : ℕ) (α : Type) where
  message : Fin M → α
  table : Fin C → Fin M → α
  colsum : Fin M → α

variable {C M : ℕ} {α : Type} [Field α]

/-- One count unit at category c: multiply the message elementwise by
table row c over the column sums, then increment row c and the column
sums by one (serving.py lines 106-109). -/
def polyaUnit (c : Fin C) (s : PolyaState C M α) : PolyaState C M α where
  message := fun m => s.message m * (s.table c m / s.colsum m)
  table := fun c2 m => if c2 = c then s.table c2 m + 1 else s.table c2 m
  colsum := fun m => s.colsum m + 1

/-- Folding a whole sequence of count units, one after the other. -/
def polyaFold (l : List (Fin C)) (s : PolyaState C M α) : PolyaState C M α :=
  l.foldl (fun s c => polyaUnit c s) s

/-- The unit sequence enumerated by the source's nested loop
(for c, count in enumerate(data[v]): for _ in range(count)):
categories in increasing order, each repeated by its observed count. -/
def unitList (C : ℕ) (data : Fin C → ℕ) : List (Fin C) :=
  (List.finRange C).flatMap fun c => List.replicate (data c) c

theorem polyaUnit_comm (c d : Fin C) (s : PolyaState C M α) :
    polyaUnit c (polyaUnit d s) = polyaUnit d (polyaUnit c s) := by
  by_cases h : c = d
  · subst h; rfl
  · refine PolyaState.ext (funext fun m => ?_) (funext fun c2 => funext fun m => ?_) rfl
    · show s.message m * (s.table d m / s.colsum m) *
          ((if c = d then s.table c m + 1 else s.table c m) / (s.colsum m + 1)) =
        s.message m * (s.table c m / s.colsum m) *
          ((if d = c then s.table d m + 1 else s.table d m) / (s.colsum m + 1))
      rw [if_neg h, if_neg fun hh : d = c => h hh.symm]
      ring
    · show (if c2 = c then (if c2 = d then s.table c2 m + 1 else s.table c2 m) + 1
            else if c2 = d then s.table c2 m + 1 else s.table c2 m) =
        (if c2 = d then (if c2 = c then s.table c2 m + 1 else s.table c2 m) + 1
            else if c2 = c then s.table c2 m + 1 else s.table c2 m)
      by_cases h1 : c2 = c <;> by_cases h2 : c2 = d <;> simp [h1, h2, h, Ne.symm h]

theorem polyaFold_cons (c : Fin C) (l : List (Fin C)) (s : PolyaState C M α) :
    polyaFold (c :: l) s = polyaFold l (polyaUnit c s) := rfl

theorem polyaFold_perm {l1 l2 : List (Fin C)} (h : l1.Perm l2)
    (s : PolyaState C M α) : polyaFold l1 s = polyaFold l2 s := by
  induction h generalizing s with
  | nil => rfl
  | cons x _ ih => rw [polyaFold_cons, polyaFold_cons, ih]
  | swap x y l =>
      rw [polyaFold_cons, polyaFold_cons, polyaFold_cons, polyaFold_cons,
        polyaUnit_comm]
  | trans _ _ ih1 ih2 => rw [ih1, ih2]

/-! ### Sufficient statistics and the trainer's incremental bookkeeping

training.TreeCatTrainer: _vert_ss, _edge_ss, _feat_ss (lines 83-87),
_update_tensors (lines 104-111), add_row (113-156), remove_row (158-163).
V is the number of features/vertices, E the number of tree edges, M the
cluster count, Kv the per-feature category cardinality.  The tree grid
(treecat.structure collaborator) appears as a function from edge ids to
the edge's (lower, higher) vertex pair. -/

/-- The three sufficient-statistics arrays of TreeCatTrainer. -/
@[ext]
structure SuffStats (V E M : ℕ) (Kv : Fin V → ℕ) where
  vert : Fin V → Fin M → ℤ
  edge : Fin E → Fin M → Fin M → ℤ
  feat : (v : Fin V) → Fin (Kv v) → Fin M → ℤ

/-- TreeCatTrainer._update_tensors: add diff times the row's contribution
to all three tallies, reading the row's stored assignment vector. -/
def updateTensors {V E M : ℕ} {Kv : Fin V → ℕ}
    (treeGrid : Fin E → Fin V × Fin V)
    (dataRow : (v : Fin V) → Fin (Kv v) → ℤ)
    (assign : Fin V → Fin M) (diff : ℤ)
    (ss : SuffStats V E M Kv) : SuffStats V E M Kv where
  vert := fun v m => ss.vert v m + if m = assign v then diff else 0
  edge := fun e m1 m2 =>
    ss.edge e m1 m2 +
      if m1 = assign (treeGrid e).1 ∧ m2 = assign (treeGrid e).2 then diff else 0
  feat := fun v c m => ss.feat v c m + if m = assign v then diff * dataRow v c else 0

/-- Trainer state: the assigned-row set, the stored assignment matrix and
the sufficient statistics (training.py lines 62-87). -/
structure TrainerState (V E M : ℕ) (Kv : Fin V → ℕ) where
  assignedRows : Finset ℕ
  assignments : ℕ → Fin V → Fin M
  ss : SuffStats V E M Kv

/-- TreeCatTrainer.add_row: assert the row is not yet assigned (else fail
with no state change), store the Gibbs-sampled assignment vector for the
row (the sampled vector is supplied here, standing for the belief
propagation and the sample_from_probs collaborator), mark the row assigned
and add its contribution to the tallies. -/
def addRow {V E M : ℕ} {Kv : Fin V → ℕ}
    (treeGrid : Fin E → Fin V × Fin V)
    (data : ℕ → (v : Fin V) → Fin (Kv v) → ℤ)
    (row : ℕ) (newAssign : Fin V → Fin M)
    (t : TrainerState V E M Kv) : Option (TrainerState V E M Kv) :=
  if row ∈ t.assignedRows then none
  else some
    { assignedRows := insert row t.assignedRows
      assignments := Function.update t.assignments row newAssign
      ss := updateTensors treeGrid (data row) newAssign 1 t.ss }

/-- TreeCatTrainer.remove_row: assert the row is assigned (else fail with
no state change), unmark it and subtract its contribution, reading the
currently stored assignment vector without resampling. -/
def removeRow {V E M : ℕ} {Kv : Fin V → ℕ}
    (treeGrid : Fin E → Fin V × Fin V)
    (data : ℕ → (v : Fin V) → Fin (Kv v) → ℤ)
    (row : ℕ)
    (t : TrainerState V E M Kv) : Option (TrainerState V E M Kv) :=
  if row ∈ t.assignedRows then
    some
      { assignedRows := t.assignedRows.erase row
        assignments := t.assignments
        ss := updateTensors treeGrid (data row) (t.assignments row) (-1) t.ss }
  else none

theorem updateTensors_inverse {V E M : ℕ} {Kv : Fin V → ℕ}
    (treeGrid : Fin E → Fin V × Fin V)
    (dataRow : (v : Fin V) → Fin (Kv v) → ℤ)
    (assign : Fin V → Fin M) (ss : SuffStats V E M Kv) :
    updateTensors treeGrid dataRow assign (-1)
      (updateTensors treeGrid dataRow assign 1 ss) = ss := by
  refine SuffStats.ext ?_ ?_ ?_
  · funext v m
    show ss.vert v m + (if m = assign v then (1:ℤ) else 0) +
        (if m = assign v then (-1:ℤ) else 0) = ss.vert v m
    split_ifs <;> ring
  · funext e m1 m2
    show ss.edge e m1 m2 +
        (if m1 = assign (treeGrid e).1 ∧ m2 = assign (treeGrid e).2 then (1:ℤ) else 0) +
        (if m1 = assign (treeGrid e).1 ∧ m2 = assign (treeGrid e).2 then (-1:ℤ) else 0) =
        ss.edge e m1 m2
    split_ifs <;> ring
  · funext v c m
    show ss.feat v c m + (if m = assign v then 1 * dataRow v c else 0) +
        (if m = assign v then (-1) * dataRow v c else 0) = ss.feat v c m
    split_ifs <;> ring

/-! ### The int8 data conversion of the trainer constructor

training.TreeCatTrainer.__init__ line 58:
data = [np.asarray(column, np.int8) for column in data].
numpy wraps values modulo 2^8 into the signed range [-128, 127]. -/

/-- Conversion of one count to a signed 8-bit integer, wrapping modulo
2^8 into [-128, 127]. -/
def toInt8 (z : ℤ) : ℤ := (z + 128) % 256 - 128

/-- The data actually stored by TreeCatTrainer.__init__ for one column. -/
def storedColumn (col : ℕ → ℤ) : ℕ → ℤ := fun r => toInt8 (col r)

/-! ### Posterior construction (serving.make_posterior, lines 17-66)

Embedded over an arbitrary field so the same definition serves exact
rational evaluation and the real-valued serving engine.  Jeffreys priors:
vertex 1/2, edge and feature 1/2/M. -/

/-- The four posterior tables returned by make_posterior. -/
structure Posterior (V E M : ℕ) (Kv : Fin V → ℕ) (α : Type) where
  observed : (v : Fin V) → Fin (Kv v) → α
  observed_latent : (v : Fin V) → Fin (Kv v) → Fin M → α
  latent : Fin V → Fin M → α
  latent_latent : Fin E → Fin M → Fin M → α

/-- serving.make_posterior: normalize prior-plus-count vertex and edge
tables, then rescale the feature-cluster joint so its cluster marginal
matches the vertex posterior (lines 43-59). -/
def makePosterior {V E M : ℕ} {Kv : Fin V → ℕ} (α : Type) [Field α]
    (ss : SuffStats V E M Kv) : Posterior V E M Kv α :=
  let latent : Fin V → Fin M → α := fun v m =>
    ((1 : α) / 2 + (ss.vert v m : α)) / ∑ m2, ((1 : α) / 2 + (ss.vert v m2 : α))
  let latent_latent : Fin E → Fin M → Fin M → α := fun e m1 m2 =>
    ((1 : α) / 2 / (M : α) + (ss.edge e m1 m2 : α)) /
      ∑ n1, ∑ n2, ((1 : α) / 2 / (M : α) + (ss.edge e n1 n2 : α))
  let observed_latent : (v : Fin V) → Fin (Kv v) → Fin M → α := fun v c m =>
    ((1 : α) / 2 / (M : α) + (ss.feat v c m : α)) *
      (latent v m / ∑ c2, ((1 : α) / 2 / (M : α) + (ss.feat v c2 m : α)))
  { observed := fun v c => ∑ m, observed_latent v c m
    observed_latent := observed_latent
    latent := latent
    latent_latent := latent_latent }

/-! ### Log-gamma scores: training-side logprob and sample_tree logits

scipy.special.gammaln is embedded exactly as the log of the Gamma
function; training.logprob_dc (lines 37-42) is its sum over a table. -/

/-- scipy.special.gammaln. -/
noncomputable def gammaln (x : ℝ) : ℝ := Real.log (Real.Gamma x)

/-- training.logprob_dc with axis=None: sum of log-gamma over all entries
of the prior-adjusted table. -/
noncomputable def logprobDC {ι : Type} [Fintype ι] (f : ι → ℝ) : ℝ :=
  ∑ i, gammaln (f i)

/-- The per-vertex Dirichlet-multinomial logit
logprob_dc(vert_ss + 0.5, axis=1) (training.py lines 171 and 199). -/
noncomputable def vertexLogit {V E M : ℕ} {Kv : Fin V → ℕ}
    (ss : SuffStats V E M Kv) (v : Fin V) : ℝ :=
  ∑ m, gammaln ((ss.vert v m : ℝ) + 1 / 2)

/-- training.count_pairs (lines 21-34): one cell of the pairwise
contingency table of the currently assigned rows. -/
def countPairs {V M : ℕ} (rows : List (Fin V → Fin M)) (v1 v2 : Fin V)
    (m1 m2 : Fin M) : ℕ :=
  rows.countP fun a => decide (a v1 = m1 ∧ a v2 = m2)

/-- One edge log-weight of TreeCatTrainer.sample_tree (lines 174-177):
the Dirichlet-multinomial log-likelihood of the pairwise contingency
table minus the two endpoint vertex logits. -/
noncomputable def edgeLogit {V E M : ℕ} {Kv : Fin V → ℕ}
    (rows : List (Fin V → Fin M)) (ss : SuffStats V E M Kv)
    (v1 v2 : Fin V) : ℝ :=
  (∑ m1, ∑ m2, gammaln ((countPairs rows v1 v2 m1 m2 : ℝ) + 1 / 2 / (M : ℝ))) -
    vertexLogit ss v1 - vertexLogit ss v2

/-- TreeCatTrainer.sample_tree edge-logit vector as written in the code
(lines 172-177): a K-vector initialized to zero whose entries are filled
only by iterating tree_grid, i.e. only at the indices of the V-1 current
tree edges (tree_grid row e carries edge id e). -/
noncomputable def codeEdgeLogits {V E M : ℕ} {Kv : Fin V → ℕ}
    (treeGrid : Fin E → Fin V × Fin V)
    (rows : List (Fin V → Fin M)) (ss : SuffStats V E M Kv)
    (K : ℕ) : Fin K → ℝ := fun k =>
  if h : (k : ℕ) < E then
    edgeLogit rows ss (treeGrid ⟨k, h⟩).1 (treeGrid ⟨k, h⟩).2
  else 0

/-- Modelled from the spec: the intended sample_tree edge-logit vector,
computing for every one of the K complete-graph candidate edges its own
contingency table and Dirichlet-multinomial log-weight.  The
complete-graph candidate enumeration is the treecat.structure
collaborator, which is not under src; it is passed as the completeGrid
argument. -/
noncomputable def specEdgeLogits {V E M K : ℕ} {Kv : Fin V → ℕ}
    (completeGrid : Fin K → Fin V × Fin V)
    (rows : List (Fin V → Fin M)) (ss : SuffStats V E M Kv) :
    Fin K → ℝ := fun k =>
  edgeLogit rows ss (completeGrid k).1 (completeGrid k).2

/-- TreeCatTrainer.logprob (lines 191-207): the closed-form non-normalized
log probability of data and assignments over the final sufficient
statistics, defined when every row is assigned. -/
noncomputable def trainerLogprob {V E M : ℕ} {Kv : Fin V → ℕ}
    (treeGrid : Fin E → Fin V × Fin V)
    (ss : SuffStats V E M Kv) : ℝ :=
  (∑ v, vertexLogit ss v) +
    (∑ e, ((∑ m1, ∑ m2, gammaln ((ss.edge e m1 m2 : ℝ) + 1 / 2 / (M : ℝ))) -
      vertexLogit ss (treeGrid e).1 - vertexLogit ss (treeGrid e).2)) +
    ∑ v, ((∑ c, ∑ m, gammaln ((ss.feat v c m : ℝ) + 1 / 2 / (M : ℝ))) -
      ∑ m, gammaln (∑ c, ((ss.feat v c m : ℝ) + 1 / 2 / (M : ℝ))))

/-! ### The serving engine (serving.TreeCatServer, lines 69-197)

The posterior tables the server reads, the upward (evidence and child
fold-in) pass, the downward sampling pass, and the task dispatch of
_propagate.  The propagation schedule (treecat.structure
make_propagation_schedule) is a parameter: an ordered list of
(vertex, parent-or-none, children) entries, root first.  find_tree_edge
is a parameter returning the edge id of an adjacent vertex pair; edge
tables are indexed by natural-number edge ids as in the numpy array,
reading 0 outside the valid range.  The categorical draw
(util.sample_from_probs) and np.random.multinomial are oracles passed as
the choose and mult arguments. -/

/-- The frozen tables TreeCatServer._propagate reads: feat_probs
(observed_latent), edge_probs (latent_latent) and vert_probs (latent). -/
structure ServerTables (V M : ℕ) (Kv : Fin V → ℕ) where
  featProbs : (v : Fin V) → Fin (Kv v) → Fin M → ℝ
  edgeProbs : ℕ → Fin M → Fin M → ℝ
  vertProbs : Fin V → Fin M → ℝ

/-- The server's tables, built once from a sufficient-statistics snapshot
by make_posterior (TreeCatServer.__init__ line 77). -/
noncomputable def serverTables {V E M : ℕ} {Kv : Fin V → ℕ}
    (ss : SuffStats V E M Kv) : ServerTables V M Kv :=
  let post := makePosterior (V := V) (E := E) ℝ ss
  { featProbs := post.observed_latent
    edgeProbs := fun e => if h : e < E then post.latent_latent ⟨e, h⟩ else fun _ _ => 0
    vertProbs := post.latent }

/-- A propagation-schedule entry: (vertex, parent or none, children). -/
def SchedEntry (V : ℕ) : Type := Fin V × Option (Fin V) × List (Fin V)

/-- The transition table for the upward child fold-in: edge_probs of the
connecting edge, transposed when v is the higher-indexed endpoint
(serving.py lines 112-115). -/
def orientUp {V M : ℕ} {Kv : Fin V → ℕ} (tbl : ServerTables V M Kv)
    (findEdge : Fin V → Fin V → ℕ) (v child : Fin V) :
    Fin M → Fin M → ℝ :=
  if (child : ℕ) < (v : ℕ) then
    fun m1 m2 => tbl.edgeProbs (findEdge v child) m2 m1
  else fun m1 m2 => tbl.edgeProbs (findEdge v child) m1 m2

/-- One vertex of the upward pass (serving.py lines 100-121): fold the
row's evidence into the vertex's message by the sequential Polya scheme
on a copy of the posterior feature table, then fold in each child
message through the oriented edge table, dividing by the vertex
marginal, renormalizing and accumulating the log of the removed
normalizer. -/
noncomputable def upStep {V M : ℕ} {Kv : Fin V → ℕ}
    (tbl : ServerTables V M Kv) (findEdge : Fin V → Fin V → ℕ)
    (data : (v : Fin V) → Fin (Kv v) → ℕ)
    (st : (Fin V → Fin M → ℝ) × ℝ) (entry : SchedEntry V) :
    (Fin V → Fin M → ℝ) × ℝ :=
  let v := entry.1
  let children := entry.2.2
  let messages := st.1
  let p0 : PolyaState (Kv v) M ℝ :=
    { message := messages v
      table := tbl.featProbs v
      colsum := fun m => ∑ c, tbl.featProbs v c m }
  let msg0 := (polyaFold (unitList (Kv v) (data v)) p0).message
  let res := children.foldl
    (fun (acc : (Fin M → ℝ) × ℝ) child =>
      let trans := orientUp tbl findEdge v child
      let m2 : Fin M → ℝ := fun m =>
        acc.1 m * (∑ n, trans m n * (messages child n / tbl.vertProbs child n)) /
          tbl.vertProbs v m
      let msum := ∑ m, m2 m
      (fun m => m2 m / msum, acc.2 + Real.log msum))
    (msg0, st.2)
  (Function.update messages v res.1, res.2)

/-- State threaded through the downward sampling pass: the message
buffers, the sampled cluster ids, the feature tables (mutated in place by
the source through a numpy view) and the accumulated feature samples. -/
structure DownState (V M : ℕ) (Kv : Fin V → ℕ) where
  messages : Fin V → Fin M → ℝ
  vertSample : Fin V → Fin M
  feat : (v : Fin V) → Fin (Kv v) → Fin M → ℝ
  featSample : (v : Fin V) → Fin (Kv v) → ℕ

/-- One vertex of the downward pass (serving.py lines 133-148): fold in
the parent's sampled cluster through the oriented edge table, renormalize,
draw the vertex's cluster id, and for a nonzero requested count normalize
the sampled column of the feature table in place (the source divides a
numpy view of feat_probs by its sum) and draw the multinomial feature
sample from it. -/
noncomputable def downStep {V M : ℕ} {Kv : Fin V → ℕ}
    (tbl : ServerTables V M Kv) (findEdge : Fin V → Fin V → ℕ)
    (counts : Fin V → ℕ) (choose : (Fin M → ℝ) → Fin M)
    (mult : (v : Fin V) → ℕ → (Fin (Kv v) → ℝ) → (Fin (Kv v) → ℕ))
    (st : DownState V M Kv) (entry : SchedEntry V) : DownState V M Kv :=
  let v := entry.1
  let msg1 : Fin M → ℝ :=
    match entry.2.1 with
    | some p =>
        let transRow : Fin M → ℝ :=
          if (v : ℕ) < (p : ℕ) then fun m => tbl.edgeProbs (findEdge p v) m (st.vertSample p)
          else fun m => tbl.edgeProbs (findEdge p v) (st.vertSample p) m
        fun m => st.messages v m * transRow m / tbl.vertProbs v m
    | none => st.messages v
  let msum := ∑ m, msg1 m
  let msg2 : Fin M → ℝ := fun m => msg1 m / msum
  let j := choose msg2
  let st1 : DownState V M Kv :=
    { st with
        messages := Function.update st.messages v msg2
        vertSample := Function.update st.vertSample v j }
  if counts v ≠ 0 then
    let colsum := ∑ c, st1.feat v c j
    let newCol : Fin (Kv v) → Fin M → ℝ := fun c m =>
      if m = j then st1.feat v c m / colsum else st1.feat v c m
    { st1 with
        feat := Function.update st1.feat v newCol
        featSample := Function.update st1.featSample v
          (mult v (counts v) fun c => newCol c j) }
  else st1

/-- Result of a _propagate call: a log probability or a feature sample. -/
inductive PropResult (V M : ℕ) (Kv : Fin V → ℕ) where
  | logprobOf (lp : ℝ)
  | sampleOf (fs : (v : Fin V) → Fin (Kv v) → ℕ)

/-- The logprob aggregation at the schedule root (serving.py lines
123-128): assert the first schedule entry has no parent, then add the log
of the root message sum. -/
noncomputable def logprobAtRoot {V M : ℕ} {Kv : Fin V → ℕ}
    (tbl : ServerTables V M Kv) (sched : List (SchedEntry V))
    (messages : Fin V → Fin M → ℝ) (lp : ℝ) :
    Except String
      (PropResult V M Kv × ((v : Fin V) → Fin (Kv v) → Fin M → ℝ)) :=
  match sched with
  | (root, none, _) :: _ =>
      Except.ok (PropResult.logprobOf (lp + Real.log (∑ m, messages root m)),
        tbl.featProbs)
  | _ => Except.error "propagate: schedule root must have no parent"

/-- TreeCatServer._propagate (lines 91-151): run the upward pass over the
reversed schedule, then dispatch on the task string; an unrecognized task
is an error.  The returned second component is the feature-probability
table held by the server after the call, so that mutation of the frozen
posterior is observable. -/
noncomputable def propagate {V M : ℕ} {Kv : Fin V → ℕ}
    (tbl : ServerTables V M Kv) (findEdge : Fin V → Fin V → ℕ)
    (sched : List (SchedEntry V)) (task : String)
    (data : (v : Fin V) → Fin (Kv v) → ℕ) (counts : Fin V → ℕ)
    (choose : (Fin M → ℝ) → Fin M)
    (mult : (v : Fin V) → ℕ → (Fin (Kv v) → ℝ) → (Fin (Kv v) → ℕ))
    (vertZero : Fin V → Fin M) :
    Except String
      (PropResult V M Kv × ((v : Fin V) → Fin (Kv v) → Fin M → ℝ)) :=
  let up := sched.reverse.foldl (upStep tbl findEdge data) (tbl.vertProbs, 0)
  let messages := up.1
  let lp := up.2
  if task = "logprob" then
    logprobAtRoot tbl sched messages lp
  else if task = "sample" then
    let d0 : DownState V M Kv :=
      { messages := messages
        vertSample := vertZero
        feat := tbl.featProbs
        featSample := fun _ _ => 0 }
    let dfin := sched.foldl (downStep tbl findEdge counts choose mult) d0
    Except.ok (PropResult.sampleOf dfin.featSample, dfin.feat)
  else Except.error ("Unknown task: " ++ task)

/-! ### The annealing schedule (training.get_annealing_schedule, 270-304)

The generator keeps a rational counter (the source's float state), the
fresh and stale counts, and two cyclic cursors over one shared random
permutation of the row ids.  Parameters: e the epoch count
(learning_annealing_epochs as a rational), i the initial-rows value
(learning_annealing_init_rows), n the number of rows, perm the shared
shuffled permutation (row_ids), samp whether tree sampling is enabled
(learning_sample_tree_steps > 0).  The while loop is embedded as a
fuel-indexed run; termination is a theorem, not an assumption. -/

/-- Generator state: the annealing counter, num_fresh, num_stale and the
positions of the two cyclic row iterators. -/
structure AnnealState where
  counter : ℚ
  fresh : ℤ
  stale : ℤ
  addCursor : ℕ
  remCursor : ℕ
deriving DecidableEq

/-- One action yielded by the generator. -/
inductive AnnealAction where
  | addRowAct (row : ℕ)
  | removeRowAct (row : ℕ)
  | sampleTreeAct
deriving DecidableEq

/-- The add-or-remove part of one while iteration (training.py lines
293-300): add when the counter is nonnegative, else remove. -/
def annealMove (e : ℚ) (n : ℕ) (perm : ℕ → ℕ) (s : AnnealState) :
    List AnnealAction × AnnealState :=
  if 0 ≤ s.counter then
    ([AnnealAction.addRowAct (perm (s.addCursor % n))],
      { counter := s.counter - (e - 1), fresh := s.fresh + 1, stale := s.stale,
        addCursor := s.addCursor + 1, remCursor := s.remCursor })
  else
    ([AnnealAction.removeRowAct (perm (s.remCursor % n))],
      { counter := s.counter + e, fresh := s.fresh, stale := s.stale - 1,
        addCursor := s.addCursor, remCursor := s.remCursor + 1 })

/-- The tree-sampling part of one while iteration (training.py lines
301-304): when tree sampling is enabled and stale has returned to zero
with fresh positive, yield a tree sample and swap the counts. -/
def annealTreeWrap (samp : Bool) (p : List AnnealAction × AnnealState) :
    List AnnealAction × AnnealState :=
  if samp = true ∧ p.2.stale = 0 ∧ 0 < p.2.fresh then
    (p.1 ++ [AnnealAction.sampleTreeAct],
      { counter := p.2.counter, fresh := 0, stale := p.2.fresh,
        addCursor := p.2.addCursor, remCursor := p.2.remCursor })
  else p

/-- One iteration of the while body (training.py lines 293-304). -/
def annealStep (e : ℚ) (n : ℕ) (perm : ℕ → ℕ) (samp : Bool)
    (s : AnnealState) : List AnnealAction × AnnealState :=
  annealTreeWrap samp (annealMove e n perm s)

/-- The while loop with explicit fuel: stop when num_fresh + num_stale
equals num_rows, else run one iteration and continue. -/
def annealRun (e : ℚ) (n : ℕ) (perm : ℕ → ℕ) (samp : Bool) :
    ℕ → AnnealState → List AnnealAction × AnnealState
  | 0, s => ([], s)
  | fuel + 1, s =>
    if s.fresh + s.stale = (n : ℤ) then ([], s)
    else
      let p := annealStep e n perm samp s
      let q := annealRun e n perm samp fuel p.2
      (p.1 ++ q.1, q.2)

/-- The generator's initial state (training.py lines 283-290):
counter = epochs * init_rows, counts zero, cursors at the start. -/
def annealInit (e i : ℚ) : AnnealState :=
  { counter := e * i, fresh := 0, stale := 0, addCursor := 0, remCursor := 0 }

/-- Number of add_row actions in a yielded prefix. -/
def addCount (l : List AnnealAction) : ℕ :=
  l.countP fun a => match a with | .addRowAct _ => true | _ => false

/-- Number of remove_row actions in a yielded prefix. -/
def removeCount (l : List AnnealAction) : ℕ :=
  l.countP fun a => match a with | .removeRowAct _ => true | _ => false

/-- Replaying the yielded actions against an assigned-row set the way
TreeCatTrainer.train consumes them (lines 230-239): add fails on an
already-assigned row, remove fails on an unassigned row, tree sampling
leaves the set unchanged. -/
def applyAction (s : Finset ℕ) : AnnealAction → Option (Finset ℕ)
  | .addRowAct r => if r ∈ s then none else some (insert r s)
  | .removeRowAct r => if r ∈ s then some (s.erase r) else none
  | .sampleTreeAct => some s

/-- Replaying a whole action sequence; none as soon as a precondition of
the trainer would be violated. -/
def applyActions (s : Finset ℕ) (l : List AnnealAction) : Option (Finset ℕ) :=
  l.foldlM applyAction s

/-! ### Invariants of the annealing generator -/

/-- Invariant tying a reachable generator state to its history: the
counter is determined by the cursors, fresh + stale equals the cursor
difference, the counter is bounded, and the cursor difference stays in
[0, n]. -/
structure AnnealInv (e i : ℚ) (n : ℕ) (s : AnnealState) : Prop where
  counterEq : s.counter = e * i - (e - 1) * s.addCursor + e * s.remCursor
  sumEq : s.fresh + s.stale = (s.addCursor : ℤ) - (s.remCursor : ℤ)
  counterLB : -(e - 1) ≤ s.counter
  counterUB : s.counter ≤ max (e * i) e
  diffLB : 0 ≤ (s.addCursor : ℤ) - (s.remCursor : ℤ)
  diffUB : (s.addCursor : ℤ) - (s.remCursor : ℤ) ≤ (n : ℤ)

theorem annealInv_init (e i : ℚ) (n : ℕ) (he : 1 ≤ e) (hi : 0 ≤ i) :
    AnnealInv e i n (annealInit e i) := by
  refine ⟨by simp [annealInit], by simp [annealInit], ?_, ?_, by simp [annealInit],
    by simp [annealInit]⟩
  · show -(e - 1) ≤ e * i
    have : 0 ≤ e * i := mul_nonneg (by linarith) hi
    linarith
  · exact le_max_left _ _

theorem annealTreeWrap_state (samp : Bool)
    (p : List AnnealAction × AnnealState) :
    (annealTreeWrap samp p).2.counter = p.2.counter ∧
      (annealTreeWrap samp p).2.addCursor = p.2.addCursor ∧
      (annealTreeWrap samp p).2.remCursor = p.2.remCursor ∧
      (annealTreeWrap samp p).2.fresh + (annealTreeWrap samp p).2.stale =
        p.2.fresh + p.2.stale := by
  unfold annealTreeWrap
  split_ifs with h
  · refine ⟨rfl, rfl, rfl, ?_⟩
    have := h.2.1
    show (0 : ℤ) + p.2.fresh = p.2.fresh + p.2.stale
    omega
  · exact ⟨rfl, rfl, rfl, rfl⟩

theorem annealTreeWrap_counts (samp : Bool)
    (p : List AnnealAction × AnnealState) :
    addCount (annealTreeWrap samp p).1 = addCount p.1 ∧
      removeCount (annealTreeWrap samp p).1 = removeCount p.1 := by
  unfold annealTreeWrap
  split_ifs with h
  · constructor <;> simp [addCount, removeCount]
  · exact ⟨rfl, rfl⟩

theorem annealStep_addCursor (e : ℚ) (n : ℕ) (perm : ℕ → ℕ) (samp : Bool)
    (s : AnnealState) :
    (annealStep e n perm samp s).2.addCursor =
      if 0 ≤ s.counter then s.addCursor + 1 else s.addCursor := by
  rw [annealStep, (annealTreeWrap_state samp _).2.1]
  unfold annealMove
  split_ifs <;> rfl

theorem annealStep_remCursor (e : ℚ) (n : ℕ) (perm : ℕ → ℕ) (samp : Bool)
    (s : AnnealState) :
    (annealStep e n perm samp s).2.remCursor =
      if 0 ≤ s.counter then s.remCursor else s.remCursor + 1 := by
  rw [annealStep, (annealTreeWrap_state samp _).2.2.1]
  unfold annealMove
  split_ifs <;> rfl

theorem annealStep_counter (e : ℚ) (n : ℕ) (perm : ℕ → ℕ) (samp : Bool)
    (s : AnnealState) :
    (annealStep e n perm samp s).2.counter =
      if 0 ≤ s.counter then s.counter - (e - 1) else s.counter + e := by
  rw [annealStep, (annealTreeWrap_state samp _).1]
  unfold annealMove
  split_ifs <;> rfl

theorem annealStep_sum (e : ℚ) (n : ℕ) (perm : ℕ → ℕ) (samp : Bool)
    (s : AnnealState) :
    (annealStep e n perm samp s).2.fresh + (annealStep e n perm samp s).2.stale =
      if 0 ≤ s.counter then s.fresh + s.stale + 1 else s.fresh + s.stale - 1 := by
  rw [annealStep, (annealTreeWrap_state samp _).2.2.2]
  unfold annealMove
  split_ifs <;> simp <;> omega

theorem annealStep_counts (e : ℚ) (n : ℕ) (perm : ℕ → ℕ) (samp : Bool)
    (s : AnnealState) :
    (addCount (annealStep e n perm samp s).1 : ℤ) -
        (removeCount (annealStep e n perm samp s).1 : ℤ) =
      if 0 ≤ s.counter then 1 else -1 := by
  rw [annealStep, (annealTreeWrap_counts samp _).1,
    (annealTreeWrap_counts samp _).2]
  unfold annealMove
  split_ifs <;> simp [addCount, removeCount]

/-- A reachable state whose counter is negative has strictly more adds
than removes so far: otherwise the counter would be nonnegative. -/
theorem annealInv_remove_pos {e i : ℚ} {n : ℕ} {s : AnnealState}
    (he : 1 ≤ e) (hi : 0 ≤ i) (hs : AnnealInv e i n s)
    (hneg : s.counter < 0) : (0 : ℤ) < (s.addCursor : ℤ) - (s.remCursor : ℤ) := by
  rcases lt_or_eq_of_le hs.diffLB with h | h
  · exact h
  · exfalso
    have hac : (s.addCursor : ℤ) = (s.remCursor : ℤ) := by omega
    have hac2 : s.addCursor = s.remCursor := by exact_mod_cast hac
    have hq : (s.addCursor : ℚ) = (s.remCursor : ℚ) := by exact_mod_cast hac2
    have h1 : s.counter = e * i + s.addCursor := by
      have := hs.counterEq
      rw [hq] at this ⊢
      linarith [this]
    have h2 : (0 : ℚ) ≤ e * i := mul_nonneg (by linarith) hi
    have h3 : (0 : ℚ) ≤ (s.addCursor : ℚ) := Nat.cast_nonneg _
    linarith

theorem annealInv_step {e i : ℚ} {n : ℕ} {perm : ℕ → ℕ} {samp : Bool}
    {s : AnnealState} (he : 1 ≤ e) (hi : 0 ≤ i) (hs : AnnealInv e i n s)
    (hne : s.fresh + s.stale ≠ (n : ℤ)) :
    AnnealInv e i n (annealStep e n perm samp s).2 := by
  have hA := annealStep_addCursor e n perm samp s
  have hR := annealStep_remCursor e n perm samp s
  have hC := annealStep_counter e n perm samp s
  have hS := annealStep_sum e n perm samp s
  by_cases h : 0 ≤ s.counter
  · rw [if_pos h] at hA hR hC hS
    have hdiff : (s.addCursor : ℤ) - (s.remCursor : ℤ) < (n : ℤ) := by
      have := hs.diffUB
      have := hs.sumEq
      omega
    refine ⟨?_, ?_, ?_, ?_, ?_, ?_⟩
    · rw [hC, hA, hR, hs.counterEq]
      push_cast
      ring
    · rw [hS, hA, hR, hs.sumEq]
      push_cast
      ring
    · rw [hC]; linarith
    · rw [hC]
      have := hs.counterUB
      linarith
    · rw [hA, hR]
      have := hs.diffLB
      push_cast
      omega
    · rw [hA, hR]
      push_cast
      omega
  · rw [if_neg h] at hA hR hC hS
    have hneg : s.counter < 0 := lt_of_not_le h
    have hpos := annealInv_remove_pos he hi hs hneg
    refine ⟨?_, ?_, ?_, ?_, ?_, ?_⟩
    · rw [hC, hA, hR, hs.counterEq]
      push_cast
      ring
    · rw [hS, hA, hR, hs.sumEq]
      push_cast
      ring
    · rw [hC]
      have := hs.counterLB
      linarith
    · rw [hC]
      have h1 : s.counter + e < e := by linarith
      have h2 : e ≤ max (e * i) e := le_max_right _ _
      linarith
    · rw [hA, hR]
      push_cast
      omega
    · rw [hA, hR]
      have := hs.diffUB
      push_cast
      omega

theorem annealRun_zero (e : ℚ) (n : ℕ) (perm : ℕ → ℕ) (samp : Bool)
    (s : AnnealState) : annealRun e n perm samp 0 s = ([], s) := rfl

theorem annealRun_succ (e : ℚ) (n : ℕ) (perm : ℕ → ℕ) (samp : Bool)
    (fuel : ℕ) (s : AnnealState) :
    annealRun e n perm samp (fuel + 1) s =
      if s.fresh + s.stale = (n : ℤ) then ([], s)
      else
        ((annealStep e n perm samp s).1 ++
            (annealRun e n perm samp fuel (annealStep e n perm samp s).2).1,
          (annealRun e n perm samp fuel (annealStep e n perm samp s).2).2) := rfl

theorem annealInv_run {e i : ℚ} {n : ℕ} {perm : ℕ → ℕ} {samp : Bool}
    (he : 1 ≤ e) (hi : 0 ≤ i) :
    ∀ (fuel : ℕ) (s : AnnealState), AnnealInv e i n s →
      AnnealInv e i n (annealRun e n perm samp fuel s).2 := by
  intro fuel
  induction fuel with
  | zero => intro s hs; exact hs
  | succ fuel ih =>
      intro s hs
      rw [annealRun_succ]
      by_cases hdone : s.fresh + s.stale = (n : ℤ)
      · rw [if_pos hdone]; exact hs
      · rw [if_neg hdone]
        exact ih _ (annealInv_step he hi hs hdone)

theorem annealRun_counts (e : ℚ) (n : ℕ) (perm : ℕ → ℕ) (samp : Bool) :
    ∀ (fuel : ℕ) (s : AnnealState),
      (addCount (annealRun e n perm samp fuel s).1 : ℤ) -
          (removeCount (annealRun e n perm samp fuel s).1 : ℤ) =
        ((annealRun e n perm samp fuel s).2.fresh +
            (annealRun e n perm samp fuel s).2.stale) -
          (s.fresh + s.stale) := by
  intro fuel
  induction fuel with
  | zero => intro s; simp [annealRun_zero, addCount, removeCount]
  | succ fuel ih =>
      intro s
      rw [annealRun_succ]
      by_cases hdone : s.fresh + s.stale = (n : ℤ)
      · rw [if_pos hdone]; simp [addCount, removeCount]
      · rw [if_neg hdone]
        have hstep := annealStep_counts e n perm samp s
        have hsum := annealStep_sum e n perm samp s
        have hrec := ih (annealStep e n perm samp s).2
        simp only [addCount, removeCount, List.countP_append] at *
        push_cast at *
        by_cases h : 0 ≤ s.counter
        · rw [if_pos h] at hstep hsum; linarith
        · rw [if_neg h] at hstep hsum; linarith

theorem annealRun_cursorTotal (e : ℚ) (n : ℕ) (perm : ℕ → ℕ) (samp : Bool) :
    ∀ (fuel : ℕ) (s : AnnealState),
      (annealRun e n perm samp fuel s).2.fresh +
          (annealRun e n perm samp fuel s).2.stale = (n : ℤ) ∨
        (annealRun e n perm samp fuel s).2.addCursor +
            (annealRun e n perm samp fuel s).2.remCursor =
          s.addCursor + s.remCursor + fuel := by
  intro fuel
  induction fuel with
  | zero => intro s; right; simp [annealRun_zero]
  | succ fuel ih =>
      intro s
      rw [annealRun_succ]
      by_cases hdone : s.fresh + s.stale = (n : ℤ)
      · rw [if_pos hdone]; left; exact hdone
      · rw [if_neg hdone]
        rcases ih (annealStep e n perm samp s).2 with h | h
        · left; exact h
        · right
          rw [h]
          have hA := annealStep_addCursor e n perm samp s
          have hR := annealStep_remCursor e n perm samp s
          by_cases hc : 0 ≤ s.counter
          · rw [if_pos hc] at hA hR; rw [hA, hR]; omega
          · rw [if_neg hc] at hA hR; rw [hA, hR]; omega

/-- Linear bound on the number of completed loop iterations of a
reachable state, extracted from the invariant. -/
theorem annealInv_cursorTotal_le {e i : ℚ} {n : ℕ} {s : AnnealState}
    (he : 1 ≤ e) (hi : 0 ≤ i) (hs : AnnealInv e i n s) :
    ((s.addCursor + s.remCursor : ℕ) : ℚ) ≤
      (n : ℚ) + 2 * (max (e * i) e + (e - 1) * (n : ℚ)) := by
  have hei : (0 : ℚ) ≤ e * i := mul_nonneg (by linarith) hi
  have ha : (s.addCursor : ℚ) ≤ (s.remCursor : ℚ) + (n : ℚ) := by
    have := hs.diffUB
    have h2 : (s.addCursor : ℤ) ≤ (s.remCursor : ℤ) + (n : ℤ) := by omega
    exact_mod_cast h2
  have hub : e * i - (e - 1) * (s.addCursor : ℚ) + e * (s.remCursor : ℚ) ≤
      max (e * i) e := hs.counterEq ▸ hs.counterUB
  have hmul : (e - 1) * (s.addCursor : ℚ) ≤
      (e - 1) * ((s.remCursor : ℚ) + (n : ℚ)) :=
    mul_le_mul_of_nonneg_left ha (by linarith)
  have hr : (s.remCursor : ℚ) ≤ max (e * i) e + (e - 1) * (n : ℚ) := by
    linarith
  have hcast : ((s.addCursor + s.remCursor : ℕ) : ℚ) =
      (s.addCursor : ℚ) + (s.remCursor : ℚ) := by push_cast; ring
  rw [hcast]
  linarith

/-- Once the loop condition fails, running with any extra fuel changes
nothing. -/
theorem annealRun_stable (e : ℚ) (n : ℕ) (perm : ℕ → ℕ) (samp : Bool) :
    ∀ (fuel : ℕ) (s : AnnealState),
      (annealRun e n perm samp fuel s).2.fresh +
          (annealRun e n perm samp fuel s).2.stale = (n : ℤ) →
      ∀ extra : ℕ,
        annealRun e n perm samp (fuel + extra) s =
          annealRun e n perm samp fuel s := by
  have hdoneRun : ∀ (f : ℕ) (s : AnnealState),
      s.fresh + s.stale = (n : ℤ) → annealRun e n perm samp f s = ([], s) := by
    intro f
    cases f with
    | zero => intro s _; rfl
    | succ f => intro s hs; rw [annealRun_succ, if_pos hs]
  intro fuel
  induction fuel with
  | zero =>
      intro s hs extra
      rw [annealRun_zero] at hs ⊢
      rw [Nat.zero_add]
      exact hdoneRun extra s hs
  | succ fuel ih =>
      intro s hs extra
      by_cases hdone : s.fresh + s.stale = (n : ℤ)
      · rw [hdoneRun (fuel + 1) s hdone, hdoneRun (fuel + 1 + extra) s hdone]
      · rw [annealRun_succ, if_neg hdone] at hs ⊢
        have h1 : fuel + 1 + extra = (fuel + extra) + 1 := by omega
        rw [h1, annealRun_succ, if_neg hdone]
        rw [ih (annealStep e n perm samp s).2 hs extra]

/-! ### The assigned-row window of the generator's cursors -/

/-- The rows a faithful consumer has assigned once the generator's
cursors have advanced to s: the image of the cursor interval under the
shared cyclic permutation. -/
def windowSet (n : ℕ) (perm : ℕ → ℕ) (s : AnnealState) : Finset ℕ :=
  (Finset.Ico s.remCursor s.addCursor).image fun j => perm (j % n)

theorem perm_mod_ne {n : ℕ} {perm : ℕ → ℕ}
    (hperm : ∀ a b, a < n → b < n → perm a = perm b → a = b)
    (hn : 0 < n) {j k : ℕ} (hjk : j < k) (hkd : k - j < n) :
    perm (j % n) ≠ perm (k % n) := by
  intro hEq
  have hmod : j % n = k % n :=
    hperm _ _ (Nat.mod_lt _ hn) (Nat.mod_lt _ hn) hEq
  have hdvd : n ∣ k - j := (Nat.modEq_iff_dvd' hjk.le).1 hmod
  have hpos : 0 < k - j := by omega
  have := Nat.le_of_dvd hpos hdvd
  omega

theorem windowSet_not_mem {n : ℕ} {perm : ℕ → ℕ}
    (hperm : ∀ a b, a < n → b < n → perm a = perm b → a = b)
    (hn : 0 < n) {r a : ℕ} (hra : r ≤ a) (hlt : a - r < n) :
    perm (a % n) ∉ (Finset.Ico r a).image fun j => perm (j % n) := by
  intro hmem
  rcases Finset.mem_image.1 hmem with ⟨j, hj, hEq⟩
  rw [Finset.mem_Ico] at hj
  exact perm_mod_ne hperm hn hj.2 (by omega) hEq

theorem windowSet_insert (n : ℕ) (perm : ℕ → ℕ) {r a : ℕ} (hra : r ≤ a) :
    insert (perm (a % n)) ((Finset.Ico r a).image fun j => perm (j % n)) =
      (Finset.Ico r (a + 1)).image fun j => perm (j % n) := by
  have h1 : Finset.Ico r (a + 1) = insert a (Finset.Ico r a) := by
    ext x
    simp only [Finset.mem_Ico, Finset.mem_insert]
    omega
  rw [h1, Finset.image_insert]

theorem windowSet_erase {n : ℕ} {perm : ℕ → ℕ}
    (hperm : ∀ a b, a < n → b < n → perm a = perm b → a = b)
    (hn : 0 < n) {r a : ℕ} (hra : r < a) (hle : a - r ≤ n) :
    ((Finset.Ico r a).image fun j => perm (j % n)).erase (perm (r % n)) =
      (Finset.Ico (r + 1) a).image fun j => perm (j % n) := by
  have h1 : Finset.Ico r a = insert r (Finset.Ico (r + 1) a) := by
    ext x
    simp only [Finset.mem_Ico, Finset.mem_insert]
    omega
  have h2 : perm (r % n) ∉ (Finset.Ico (r + 1) a).image fun j => perm (j % n) := by
    intro hmem
    rcases Finset.mem_image.1 hmem with ⟨j, hj, hEq⟩
    rw [Finset.mem_Ico] at hj
    exact perm_mod_ne hperm hn (show r < j by omega) (by omega) hEq.symm
  rw [h1, Finset.image_insert, Finset.erase_insert h2]

theorem applyActions_singleton (w : Finset ℕ) (a : AnnealAction) :
    applyActions w [a] = applyAction w a := by
  show (applyAction w a).bind (fun s2 => some s2) = applyAction w a
  cases applyAction w a <;> rfl

theorem applyActions_append (w : Finset ℕ) (l1 l2 : List AnnealAction) :
    applyActions w (l1 ++ l2) =
      (applyActions w l1).bind fun s2 => applyActions s2 l2 := by
  induction l1 generalizing w with
  | nil => rfl
  | cons a l ih =>
      rw [List.cons_append,
        show applyActions w (a :: (l ++ l2)) =
          (applyAction w a).bind (fun s2 => applyActions s2 (l ++ l2)) from rfl,
        show applyActions w (a :: l) =
          (applyAction w a).bind (fun s2 => applyActions s2 l) from rfl]
      cases applyAction w a with
      | none => rfl
      | some s2 => exact ih s2

theorem annealStep_window {e i : ℚ} {n : ℕ} {perm : ℕ → ℕ} {samp : Bool}
    {s : AnnealState} (he : 1 ≤ e) (hi : 0 ≤ i)
    (hperm : ∀ a b, a < n → b < n → perm a = perm b → a = b) (hn : 0 < n)
    (hs : AnnealInv e i n s) (hne : s.fresh + s.stale ≠ (n : ℤ)) :
    applyActions (windowSet n perm s) (annealStep e n perm samp s).1 =
      some (windowSet n perm (annealStep e n perm samp s).2) := by
  have hwrap : ∀ (w : Finset ℕ) (p : List AnnealAction × AnnealState),
      applyActions w (annealTreeWrap samp p).1 = applyActions w p.1 ∧
        windowSet n perm (annealTreeWrap samp p).2 = windowSet n perm p.2 := by
    intro w p
    unfold annealTreeWrap
    split_ifs with h
    · refine ⟨?_, rfl⟩
      rw [applyActions_append]
      cases applyActions w p.1 <;> rfl
    · exact ⟨rfl, rfl⟩
  rw [annealStep,
    (hwrap (windowSet n perm s) (annealMove e n perm s)).1,
    (hwrap (windowSet n perm s) (annealMove e n perm s)).2]
  by_cases h : 0 ≤ s.counter
  · have hra : s.remCursor ≤ s.addCursor := by
      have := hs.diffLB; omega
    have hlt : s.addCursor - s.remCursor < n := by
      have h1 := hs.diffUB
      have h2 := hs.sumEq
      omega
    have hmove : annealMove e n perm s =
        ([AnnealAction.addRowAct (perm (s.addCursor % n))],
          { counter := s.counter - (e - 1), fresh := s.fresh + 1,
            stale := s.stale, addCursor := s.addCursor + 1,
            remCursor := s.remCursor }) := by
      unfold annealMove; rw [if_pos h]
    rw [hmove]
    show applyActions (windowSet n perm s)
        [AnnealAction.addRowAct (perm (s.addCursor % n))] = _
    rw [applyActions_singleton]
    have hnot : perm (s.addCursor % n) ∉ windowSet n perm s :=
      windowSet_not_mem hperm hn hra hlt
    show (if perm (s.addCursor % n) ∈ windowSet n perm s then none
      else some (insert (perm (s.addCursor % n)) (windowSet n perm s))) = _
    rw [if_neg hnot]
    show some (insert (perm (s.addCursor % n))
        ((Finset.Ico s.remCursor s.addCursor).image fun j => perm (j % n))) =
      some ((Finset.Ico s.remCursor (s.addCursor + 1)).image
        fun j => perm (j % n))
    rw [windowSet_insert n perm hra]
  · have hneg : s.counter < 0 := lt_of_not_le h
    have hpos := annealInv_remove_pos he hi hs hneg
    have hra : s.remCursor < s.addCursor := by omega
    have hle : s.addCursor - s.remCursor ≤ n := by
      have := hs.diffUB; omega
    have hmove : annealMove e n perm s =
        ([AnnealAction.removeRowAct (perm (s.remCursor % n))],
          { counter := s.counter + e, fresh := s.fresh,
            stale := s.stale - 1, addCursor := s.addCursor,
            remCursor := s.remCursor + 1 }) := by
      unfold annealMove; rw [if_neg h]
    rw [hmove]
    show applyActions (windowSet n perm s)
        [AnnealAction.removeRowAct (perm (s.remCursor % n))] = _
    rw [applyActions_singleton]
    have hmem : perm (s.remCursor % n) ∈ windowSet n perm s :=
      Finset.mem_image.2 ⟨s.remCursor, Finset.mem_Ico.2 ⟨le_refl _, hra⟩, rfl⟩
    show (if perm (s.remCursor % n) ∈ windowSet n perm s then
        some ((windowSet n perm s).erase (perm (s.remCursor % n))) else none) = _
    rw [if_pos hmem]
    show some (((Finset.Ico s.remCursor s.addCursor).image
        (fun j => perm (j % n))).erase (perm (s.remCursor % n))) =
      some ((Finset.Ico (s.remCursor + 1) s.addCursor).image
        fun j => perm (j % n))
    rw [windowSet_erase hperm hn hra hle]

theorem annealRun_window {e i : ℚ} {n : ℕ} {perm : ℕ → ℕ} {samp : Bool}
    (he : 1 ≤ e) (hi : 0 ≤ i)
    (hperm : ∀ a b, a < n → b < n → perm a = perm b → a = b) (hn : 0 < n) :
    ∀ (fuel : ℕ) (s : AnnealState), AnnealInv e i n s →
      (applyActions (windowSet n perm s)
          (annealRun e n perm samp fuel s).1).isSome = true := by
  intro fuel
  induction fuel with
  | zero => intro s _; rfl
  | succ fuel ih =>
      intro s hs
      rw [annealRun_succ]
      by_cases hdone : s.fresh + s.stale = (n : ℤ)
      · rw [if_pos hdone]; rfl
      · rw [if_neg hdone]
        show (applyActions (windowSet n perm s)
          ((annealStep e n perm samp s).1 ++
            (annealRun e n perm samp fuel (annealStep e n perm samp s).2).1)).isSome = true
        rw [applyActions_append, annealStep_window he hi hperm hn hs hdone]
        exact ih _ (annealInv_step he hi hs hdone)

/-! ### Claims C5 and C9 -/

/-- C5: for every num_rows ≥ 1, epoch count ≥ 1 and nonnegative
initial-rows value, the annealing generator terminates after finitely
many emitted actions, and at termination the emitted add_row actions
exceed the emitted remove_row actions by exactly num_rows. -/
theorem C5_annealing_terminates_with_add_excess (e i : ℚ) (n : ℕ)
    (perm : ℕ → ℕ) (samp : Bool) (he : 1 ≤ e) (hi : 0 ≤ i) (hn : 1 ≤ n) :
    ∃ fuel : ℕ,
      ((annealRun e n perm samp fuel (annealInit e i)).2.fresh +
          (annealRun e n perm samp fuel (annealInit e i)).2.stale = (n : ℤ)) ∧
        ((addCount (annealRun e n perm samp fuel (annealInit e i)).1 : ℤ) =
          (removeCount (annealRun e n perm samp fuel (annealInit e i)).1 : ℤ) +
            (n : ℤ)) ∧
        ∀ extra : ℕ,
          annealRun e n perm samp (fuel + extra) (annealInit e i) =
            annealRun e n perm samp fuel (annealInit e i) := by
  set B : ℚ := (n : ℚ) + 2 * (max (e * i) e + (e - 1) * (n : ℚ)) with hB
  have hdone : (annealRun e n perm samp (⌈B⌉₊ + 1) (annealInit e i)).2.fresh +
      (annealRun e n perm samp (⌈B⌉₊ + 1) (annealInit e i)).2.stale = (n : ℤ) := by
    rcases annealRun_cursorTotal e n perm samp (⌈B⌉₊ + 1) (annealInit e i)
      with h | h
    · exact h
    · exfalso
      have hinv := @annealInv_run e i n perm samp he hi (⌈B⌉₊ + 1) _
        (annealInv_init e i n he hi)
      have hle := annealInv_cursorTotal_le he hi hinv
      rw [h] at hle
      have h0 : (annealInit e i).addCursor + (annealInit e i).remCursor = 0 := rfl
      rw [h0] at hle
      rw [← hB] at hle
      have h2 : B ≤ (⌈B⌉₊ : ℚ) := Nat.le_ceil B
      push_cast at hle
      linarith
  refine ⟨⌈B⌉₊ + 1, hdone, ?_, annealRun_stable e n perm samp _ _ hdone⟩
  have hc := annealRun_counts e n perm samp (⌈B⌉₊ + 1) (annealInit e i)
  rw [hdone] at hc
  have h0 : (annealInit e i).fresh + (annealInit e i).stale = 0 := rfl
  rw [h0] at hc
  omega

/-- C5 witness: concrete configuration with two rows, two epochs, no
initial rows and tree sampling on. -/
theorem C5_annealing_terminates_with_add_excess_witness :
    ((1 : ℚ) ≤ 2) ∧ ((0 : ℚ) ≤ 0) ∧ (1 ≤ 2) ∧
      ∃ fuel : ℕ,
        ((annealRun 2 2 id true fuel (annealInit 2 0)).2.fresh +
            (annealRun 2 2 id true fuel (annealInit 2 0)).2.stale = ((2 : ℕ) : ℤ)) ∧
          ((addCount (annealRun 2 2 id true fuel (annealInit 2 0)).1 : ℤ) =
            (removeCount (annealRun 2 2 id true fuel (annealInit 2 0)).1 : ℤ) +
              ((2 : ℕ) : ℤ)) ∧
          ∀ extra : ℕ,
            annealRun 2 2 id true (fuel + extra) (annealInit 2 0) =
              annealRun 2 2 id true fuel (annealInit 2 0) := by
  refine ⟨by decide, by decide, by decide, ?_⟩
  exact C5_annealing_terminates_with_add_excess 2 0 2 id true
    (by decide) (by decide) (by decide)

/-- C9: replaying the generator's action stream against an initially
empty assigned set, as train() does, never violates the trainer's
add_row and remove_row preconditions: every emitted add names an
unassigned row and every emitted remove names an assigned row, and the
running add-minus-remove difference stays within [0, num_rows]. -/
theorem C9_schedule_respects_trainer_preconditions (e i : ℚ) (n : ℕ)
    (perm : ℕ → ℕ) (samp : Bool) (he : 1 ≤ e) (hi : 0 ≤ i)
    (hperm : ∀ a b, a < n → b < n → perm a = perm b → a = b) :
    ∀ fuel : ℕ,
      (applyActions ∅ (annealRun e n perm samp fuel (annealInit e i)).1).isSome
          = true ∧
        (0 ≤ (annealRun e n perm samp fuel (annealInit e i)).2.fresh +
            (annealRun e n perm samp fuel (annealInit e i)).2.stale ∧
          (annealRun e n perm samp fuel (annealInit e i)).2.fresh +
            (annealRun e n perm samp fuel (annealInit e i)).2.stale ≤ (n : ℤ)) := by
  intro fuel
  have hinv := @annealInv_run e i n perm samp he hi fuel _
    (annealInv_init e i n he hi)
  constructor
  · rcases Nat.eq_zero_or_pos n with hn | hn
    · subst hn
      have hrun : annealRun e 0 perm samp fuel (annealInit e i) =
          ([], annealInit e i) := by
        cases fuel with
        | zero => rfl
        | succ f =>
            rw [annealRun_succ, if_pos]
            simp [annealInit]
      rw [hrun]
      rfl
    · have h0 : windowSet n perm (annealInit e i) = ∅ := by
        simp [windowSet, annealInit]
      have hw := @annealRun_window e i n perm samp he hi hperm hn fuel _
        (annealInv_init e i n he hi)
      rwa [h0] at hw
  · have h1 := hinv.diffLB
    have h2 := hinv.diffUB
    have h3 := hinv.sumEq
    omega

/-- C9 witness: the replay succeeds for a concrete configuration and a
fuel large enough to cover the whole schedule. -/
theorem C9_schedule_respects_trainer_preconditions_witness :
    ((1 : ℚ) ≤ 2) ∧ ((0 : ℚ) ≤ 0) ∧
      (∀ a b : ℕ, a < 2 → b < 2 → id a = id b → a = b) ∧
      (applyActions ∅ (annealRun 2 2 id true 12 (annealInit 2 0)).1).isSome
        = true := by
  refine ⟨by decide, by decide, fun a b _ _ h => h, ?_⟩
  exact (C9_schedule_respects_trainer_preconditions 2 0 2 id true
    (by decide) (by decide) (fun a b _ _ h => h) 12).1

/-! ### Shared concrete shapes for the worked examples -/

/-- One category per feature. -/
abbrev KvOne : Fin 1 → ℕ := fun _ => 1

/-- The empty tree grid of a single-vertex model. -/
def gridEmpty : Fin 0 → Fin 1 × Fin 1 := fun e => e.elim0

/-- A single-column dataset whose only cell holds one count. -/
def dataOne : ℕ → (v : Fin 1) → Fin (KvOne v) → ℤ := fun _ _ _ => 1

/-- All-zero sufficient statistics of the 1-vertex 1-cluster shape. -/
def zeroSS1 : SuffStats 1 0 1 KvOne :=
  ⟨fun _ _ => 0, fun e => e.elim0, fun _ _ _ => 0⟩

/-- The unassigned initial trainer state on that shape. -/
def trainerEmpty : TrainerState 1 0 1 KvOne := ⟨∅, fun _ _ => 0, zeroSS1⟩

/-- A trainer state with row 0 assigned. -/
def trainerRow0 : TrainerState 1 0 1 KvOne := ⟨{0}, fun _ _ => 0, zeroSS1⟩

/-- A tiny Polya fold state over the rationals. -/
def polyaEx : PolyaState 2 1 ℚ := ⟨fun _ => 1, fun _ _ => 1, fun _ => 1⟩

/-- One category per feature on a three-vertex model. -/
abbrev KvThree : Fin 3 → ℕ := fun _ => 1

/-- The chain tree 0 - 1 - 2 on three vertices. -/
def treeGrid3 : Fin 2 → Fin 3 × Fin 3 := ![(0, 1), (1, 2)]

/-- The complete-graph candidate enumeration on three vertices. -/
def completeGrid3 : Fin 3 → Fin 3 × Fin 3 := ![(0, 1), (0, 2), (1, 2)]

/-- One assigned row with the all-zero assignment vector. -/
def rows3 : List (Fin 3 → Fin 1) := [fun _ => 0]

/-- The sufficient statistics after assigning that single row. -/
def ss3 : SuffStats 3 2 1 KvThree :=
  ⟨fun _ _ => 1, fun _ _ _ => 1, fun _ _ _ => 1⟩

/-! ### The value of log-gamma at 3/2 -/

theorem gammaln_three_halves_neg : gammaln (3 / 2) < 0 := by
  have h1 : Real.Gamma (3 / 2) = Real.sqrt Real.pi / 2 := by
    have h2 : (3 / 2 : ℝ) = 1 / 2 + 1 := by norm_num
    rw [h2, Real.Gamma_add_one (by norm_num), Real.Gamma_one_half_eq]
    ring
  rw [gammaln, h1]
  apply Real.log_neg
  · exact div_pos (Real.sqrt_pos.2 Real.pi_pos) (by norm_num)
  · rw [div_lt_one (by norm_num)]
    have h3 : Real.sqrt Real.pi < Real.sqrt 4 :=
      Real.sqrt_lt_sqrt (le_of_lt Real.pi_pos) (by linarith [Real.pi_lt_d2])
    have h4 : Real.sqrt 4 = 2 := by
      rw [show (4 : ℝ) = 2 ^ 2 by norm_num, Real.sqrt_sq (by norm_num)]
    linarith

theorem gammaln_three_halves_ne : gammaln (3 / 2) ≠ 0 :=
  ne_of_lt gammaln_three_halves_neg

/-! ### Claim C2 -/

/-- C2: evidence for the sample_tree defect.  The code's edge-logit
vector, which iterates tree_grid, leaves candidate index 2 (the non-tree
candidate slot) at its zero initialization, while computing the
Dirichlet-multinomial log-weight prescribed for every complete-graph
candidate gives the nonzero -log Gamma(3/2) there. -/
theorem C2_sample_tree_misses_nontree_candidates :
    codeEdgeLogits treeGrid3 rows3 ss3 3 2 = 0 ∧
      specEdgeLogits completeGrid3 rows3 ss3 2 = -gammaln (3 / 2) ∧
      gammaln (3 / 2) ≠ 0 := by
  refine ⟨?_, ?_, gammaln_three_halves_ne⟩
  · rw [codeEdgeLogits, dif_neg (by decide)]
  · have h1 : (completeGrid3 2).1 = 1 := by decide
    have h2 : (completeGrid3 2).2 = 2 := by decide
    have hc : countPairs rows3 1 2 0 0 = 1 := by decide
    rw [specEdgeLogits, edgeLogit, h1, h2]
    rw [show (∑ m1 : Fin 1, ∑ m2 : Fin 1,
        gammaln ((countPairs rows3 1 2 m1 m2 : ℝ) + 1 / 2 / ((1 : ℕ) : ℝ))) =
      gammaln ((countPairs rows3 1 2 0 0 : ℝ) + 1 / 2 / ((1 : ℕ) : ℝ)) from by
        rw [Fin.sum_univ_one, Fin.sum_univ_one]]
    rw [hc, vertexLogit, vertexLogit, Fin.sum_univ_one, Fin.sum_univ_one]
    rw [show ss3.vert 1 0 = 1 from rfl, show ss3.vert 2 0 = 1 from rfl]
    norm_num

/-! ### Claim C3: trainer logprob versus serving-side row sum -/

/-- The single-vertex single-cluster sufficient statistics after
assigning the one row of the minimal dataset. -/
def ssOneRow : SuffStats 1 0 1 KvOne :=
  ⟨fun _ _ => 1, fun e => e.elim0, fun _ _ _ => 1⟩

/-- The propagation schedule of a single-vertex tree. -/
def schedOne : List (SchedEntry 1) := [(0, none, [])]

/-- The minimal data row: one count in the single category. -/
def dataRowOne : (v : Fin 1) → Fin (KvOne v) → ℕ := fun _ _ => 1

/-- Running propagate in logprob mode over the single-vertex schedule
reduces to the log of the evidence-folded message sum; the feature table
is returned untouched. -/
theorem propagate_logprob_single {M : ℕ} {Kv : Fin 1 → ℕ}
    (tbl : ServerTables 1 M Kv) (findEdge : Fin 1 → Fin 1 → ℕ)
    (data : (v : Fin 1) → Fin (Kv v) → ℕ) (counts : Fin 1 → ℕ)
    (choose : (Fin M → ℝ) → Fin M)
    (mult : (v : Fin 1) → ℕ → (Fin (Kv v) → ℝ) → (Fin (Kv v) → ℕ))
    (vz : Fin 1 → Fin M) :
    propagate tbl findEdge schedOne "logprob" data counts choose mult vz =
      Except.ok (PropResult.logprobOf (0 + Real.log (∑ m,
        (polyaFold (unitList (Kv 0) (data 0))
          { message := tbl.vertProbs 0
            table := tbl.featProbs 0
            colsum := fun m => ∑ c, tbl.featProbs 0 c m }).message m)),
        tbl.featProbs) := rfl

theorem serverTables_ssOneRow_vert (v : Fin 1) (m : Fin 1) :
    (serverTables ssOneRow).vertProbs v m = 1 := by
  show ((1 : ℝ) / 2 + ((1 : ℤ) : ℝ)) /
      (∑ m2 : Fin 1, ((1 : ℝ) / 2 + ((ssOneRow.vert v m2 : ℤ) : ℝ))) = 1
  rw [Fin.sum_univ_one, show ssOneRow.vert v 0 = 1 from rfl]
  norm_num

theorem serverTables_ssOneRow_feat (v : Fin 1) (c : Fin 1) (m : Fin 1) :
    (serverTables ssOneRow).featProbs v c m = 1 := by
  show ((1 : ℝ) / 2 / ((1 : ℕ) : ℝ) + ((1 : ℤ) : ℝ)) *
      ((((1 : ℝ) / 2 + ((1 : ℤ) : ℝ)) /
          (∑ m2 : Fin 1, ((1 : ℝ) / 2 + ((ssOneRow.vert v m2 : ℤ) : ℝ)))) /
        (∑ c2 : Fin 1, ((1 : ℝ) / 2 / ((1 : ℕ) : ℝ) +
          ((ssOneRow.feat v c2 m : ℤ) : ℝ)))) = 1
  rw [Fin.sum_univ_one, Fin.sum_univ_one,
    show ssOneRow.vert v 0 = 1 from rfl, show ssOneRow.feat v 0 m = 1 from rfl]
  norm_num

/-- The serving engine evaluated on the minimal model: the log
probability of the single row is exactly 0. -/
noncomputable def serverRowLogprob : ℝ :=
  match propagate (serverTables ssOneRow) (fun _ _ => 0) schedOne "logprob"
      dataRowOne (fun _ => 0) (fun _ => 0) (fun _ _ _ _ => 0) (fun _ => 0) with
  | Except.ok (PropResult.logprobOf lp, _) => lp
  | _ => 0

theorem serverRowLogprob_eq_zero : serverRowLogprob = 0 := by
  rw [serverRowLogprob, propagate_logprob_single]
  show 0 + Real.log (∑ m : Fin 1,
      (polyaFold (unitList 1 (dataRowOne 0))
        { message := (serverTables ssOneRow).vertProbs 0
          table := (serverTables ssOneRow).featProbs 0
          colsum := fun m => ∑ c, (serverTables ssOneRow).featProbs 0 c m
          }).message m) = 0
  have hunit : unitList 1 (dataRowOne 0) = [0] := by decide
  rw [hunit]
  rw [show polyaFold [(0 : Fin 1)]
      { message := (serverTables ssOneRow).vertProbs 0
        table := (serverTables ssOneRow).featProbs 0
        colsum := fun m => ∑ c, (serverTables ssOneRow).featProbs 0 c m
        } = polyaUnit 0
      { message := (serverTables ssOneRow).vertProbs 0
        table := (serverTables ssOneRow).featProbs 0
        colsum := fun m => ∑ c, (serverTables ssOneRow).featProbs 0 c m
        } from rfl]
  rw [Fin.sum_univ_one]
  show 0 + Real.log ((serverTables ssOneRow).vertProbs 0 0 *
      ((serverTables ssOneRow).featProbs 0 0 0 /
        (∑ c : Fin 1, (serverTables ssOneRow).featProbs 0 c 0))) = 0
  rw [Fin.sum_univ_one, serverTables_ssOneRow_vert, serverTables_ssOneRow_feat]
  norm_num [Real.log_one]

theorem trainerLogprob_ssOneRow :
    trainerLogprob gridEmpty ssOneRow = gammaln (3 / 2) := by
  rw [trainerLogprob]
  rw [Fin.sum_univ_one, Fin.sum_univ_one, Fin.sum_univ_zero]
  rw [show (∑ c : Fin 1, ∑ m : Fin 1,
      gammaln (((ssOneRow.feat 0 c m : ℤ) : ℝ) + 1 / 2 / ((1 : ℕ) : ℝ))) =
    gammaln (((1 : ℤ) : ℝ) + 1 / 2 / ((1 : ℕ) : ℝ)) from by
      rw [Fin.sum_univ_one, Fin.sum_univ_one]
      rfl]
  rw [show (∑ m : Fin 1, gammaln (∑ c : Fin 1,
      (((ssOneRow.feat 0 c m : ℤ) : ℝ) + 1 / 2 / ((1 : ℕ) : ℝ)))) =
    gammaln (((1 : ℤ) : ℝ) + 1 / 2 / ((1 : ℕ) : ℝ)) from by
      rw [Fin.sum_univ_one, Fin.sum_univ_one]
      rfl]
  rw [vertexLogit, Fin.sum_univ_one]
  rw [show ssOneRow.vert 0 0 = 1 from rfl]
  norm_num

/-- The minimal final state is reached by add_row from the empty state:
with one cluster the Gibbs draw is the constant assignment. -/
theorem ssOneRow_reachable :
    ∃ t : TrainerState 1 0 1 KvOne,
      addRow gridEmpty dataOne 0 (fun _ => 0) trainerEmpty = some t ∧
        t.ss = ssOneRow := by
  rw [addRow, if_neg (by decide)]
  refine ⟨_, rfl, ?_⟩
  show updateTensors gridEmpty (dataOne 0) (fun _ => 0) 1 trainerEmpty.ss =
    ssOneRow
  refine SuffStats.ext ?_ ?_ ?_
  · funext v m
    fin_cases v
    fin_cases m
    decide
  · funext e
    exact e.elim0
  · funext v c m
    fin_cases v
    fin_cases c
    fin_cases m
    decide

/-- C3 counterexample: at the minimal final trainer state (one feature,
one cluster, one category, the single row assigned with count 1) the
training-side logprob is log Gamma(3/2), while the serving-side sum of
per-row log probabilities over the same statistics is 0, so the two are
not equal. -/
theorem C3_counterexample_trainer_neq_server_sum :
    (∃ t : TrainerState 1 0 1 KvOne,
        addRow gridEmpty dataOne 0 (fun _ => 0) trainerEmpty = some t ∧
          t.ss = ssOneRow) ∧
      serverRowLogprob = 0 ∧
      trainerLogprob gridEmpty ssOneRow = gammaln (3 / 2) ∧
      trainerLogprob gridEmpty ssOneRow ≠ serverRowLogprob := by
  refine ⟨ssOneRow_reachable, serverRowLogprob_eq_zero,
    trainerLogprob_ssOneRow, ?_⟩
  rw [trainerLogprob_ssOneRow, serverRowLogprob_eq_zero]
  exact gammaln_three_halves_ne

/-- C3 amended: the training-side logprob is a non-normalized log
probability of data and assignments; it differs from the serving-side
sum by a nonzero normalization term.  At the minimal final state the
difference is exactly log Gamma(3/2). -/
theorem C3_amended_nonnormalized_offset :
    trainerLogprob gridEmpty ssOneRow = serverRowLogprob + gammaln (3 / 2) ∧
      gammaln (3 / 2) ≠ 0 := by
  refine ⟨?_, gammaln_three_halves_ne⟩
  rw [trainerLogprob_ssOneRow, serverRowLogprob_eq_zero, zero_add]

/-! ### Claim C1: a sample call mutates the frozen posterior -/

/-- All-zero sufficient statistics on one vertex with two clusters. -/
def ssZero2 : SuffStats 1 0 2 KvOne :=
  ⟨fun _ _ => 0, fun e => e.elim0, fun _ _ _ => 0⟩

theorem serverTables_ssZero2_vert (v : Fin 1) (m : Fin 2) :
    (serverTables ssZero2).vertProbs v m = 1 / 2 := by
  show ((1 : ℝ) / 2 + ((0 : ℤ) : ℝ)) /
      (∑ m2 : Fin 2, ((1 : ℝ) / 2 + ((ssZero2.vert v m2 : ℤ) : ℝ))) = 1 / 2
  rw [Fin.sum_univ_two, show ssZero2.vert v 0 = 0 from rfl,
    show ssZero2.vert v 1 = 0 from rfl]
  norm_num

theorem serverTables_ssZero2_feat (v : Fin 1) (c : Fin 1) (m : Fin 2) :
    (serverTables ssZero2).featProbs v c m = 1 / 2 := by
  show ((1 : ℝ) / 2 / ((2 : ℕ) : ℝ) + ((0 : ℤ) : ℝ)) *
      ((((1 : ℝ) / 2 + ((0 : ℤ) : ℝ)) /
          (∑ m2 : Fin 2, ((1 : ℝ) / 2 + ((ssZero2.vert v m2 : ℤ) : ℝ)))) /
        (∑ c2 : Fin 1, ((1 : ℝ) / 2 / ((2 : ℕ) : ℝ) +
          ((ssZero2.feat v c2 m : ℤ) : ℝ)))) = 1 / 2
  rw [Fin.sum_univ_two, Fin.sum_univ_one,
    show ssZero2.vert v 0 = 0 from rfl, show ssZero2.vert v 1 = 0 from rfl,
    show ssZero2.feat v 0 m = 0 from rfl]
  norm_num

/-- C1: evidence for the serving defect.  A sample task with a nonzero
requested count returns a feature-probability table different from the
frozen posterior the server was built with: the source normalizes a
numpy view of feat_probs in place, so the sampled column of
observed_latent is rescaled.  This holds for every categorical-draw and
multinomial oracle, i.e. for every randomness outcome. -/
theorem C1_sample_call_mutates_posterior :
    ∀ (choose : (Fin 2 → ℝ) → Fin 2)
      (mult : (v : Fin 1) → ℕ → (Fin (KvOne v) → ℝ) → (Fin (KvOne v) → ℕ))
      (vz : Fin 1 → Fin 2),
      ∃ res ft,
        propagate (serverTables ssZero2) (fun _ _ => 0) schedOne "sample"
            (fun _ _ => 0) (fun _ => 1) choose mult vz = Except.ok (res, ft) ∧
          ft ≠ (serverTables ssZero2).featProbs := by
  intro choose mult vz
  refine ⟨_, _, rfl, ?_⟩
  intro heq
  have hval :
      (if (choose fun m => (serverTables ssZero2).vertProbs 0 m /
            ∑ m2, (serverTables ssZero2).vertProbs 0 m2) =
          (choose fun m => (serverTables ssZero2).vertProbs 0 m /
            ∑ m2, (serverTables ssZero2).vertProbs 0 m2) then
        (serverTables ssZero2).featProbs 0 0
            (choose fun m => (serverTables ssZero2).vertProbs 0 m /
              ∑ m2, (serverTables ssZero2).vertProbs 0 m2) /
          (∑ c2 : Fin 1, (serverTables ssZero2).featProbs 0 c2
            (choose fun m => (serverTables ssZero2).vertProbs 0 m /
              ∑ m2, (serverTables ssZero2).vertProbs 0 m2))
      else
        (serverTables ssZero2).featProbs 0 0
          (choose fun m => (serverTables ssZero2).vertProbs 0 m /
            ∑ m2, (serverTables ssZero2).vertProbs 0 m2)) =
      (serverTables ssZero2).featProbs 0 0
        (choose fun m => (serverTables ssZero2).vertProbs 0 m /
          ∑ m2, (serverTables ssZero2).vertProbs 0 m2) :=
    congrFun (congrFun (congrFun heq 0) 0)
      (choose fun m => (serverTables ssZero2).vertProbs 0 m /
        ∑ m2, (serverTables ssZero2).vertProbs 0 m2)
  generalize hg : (choose fun m => (serverTables ssZero2).vertProbs 0 m /
    ∑ m2, (serverTables ssZero2).vertProbs 0 m2) = jj at hval
  rw [if_pos rfl, Fin.sum_univ_one, serverTables_ssZero2_feat] at hval
  norm_num at hval

/-! ### Claims C4, C6, C7, C8, C10 -/

/-- C4: for every row_id not in the assigned set, add_row then remove_row
restores all three sufficient-statistics arrays bit-identically and
restores the assigned set, because remove decrements using the row's
currently stored assignment vector without resampling. -/
theorem C4_add_then_remove_restores_suffstats {V E M : ℕ} {Kv : Fin V → ℕ}
    (treeGrid : Fin E → Fin V × Fin V)
    (data : ℕ → (v : Fin V) → Fin (Kv v) → ℤ)
    (row : ℕ) (newAssign : Fin V → Fin M) (t : TrainerState V E M Kv)
    (h : row ∉ t.assignedRows) :
    ∃ t2 : TrainerState V E M Kv,
      (addRow treeGrid data row newAssign t).bind (removeRow treeGrid data row) =
          some t2 ∧
        t2.ss = t.ss ∧ t2.assignedRows = t.assignedRows := by
  refine ⟨⟨t.assignedRows, Function.update t.assignments row newAssign, t.ss⟩,
    ?_, rfl, rfl⟩
  rw [addRow, if_neg h]
  show removeRow treeGrid data row
      { assignedRows := insert row t.assignedRows
        assignments := Function.update t.assignments row newAssign
        ss := updateTensors treeGrid (data row) newAssign 1 t.ss } = _
  rw [removeRow, if_pos (Finset.mem_insert_self row t.assignedRows)]
  simp only [Function.update_same, updateTensors_inverse,
    Finset.erase_insert h]

/-- C4 witness: the theorem applied to a concrete unassigned row of a
concrete trainer state. -/
theorem C4_add_then_remove_restores_suffstats_witness :
    (7 ∉ trainerEmpty.assignedRows) ∧
      ∃ t2 : TrainerState 1 0 1 KvOne,
        (addRow gridEmpty dataOne 7 (fun _ => 0) trainerEmpty).bind
            (removeRow gridEmpty dataOne 7) = some t2 ∧
          t2.ss = trainerEmpty.ss ∧
          t2.assignedRows = trainerEmpty.assignedRows :=
  ⟨by decide,
    C4_add_then_remove_restores_suffstats gridEmpty dataOne 7 (fun _ => 0)
      trainerEmpty (by decide)⟩

/-- C6: re-adding an already-assigned row, removing an unassigned row, or
requesting an unrecognized propagation task fail immediately with an
error and without touching the sufficient statistics or the assigned set
(the source asserts before any mutation; the unknown-task branch of
_propagate raises after the pure upward pass, before either mutating
branch). -/
theorem C6_contract_violations_fail {V E M : ℕ} {Kv : Fin V → ℕ} :
    (∀ (treeGrid : Fin E → Fin V × Fin V)
        (data : ℕ → (v : Fin V) → Fin (Kv v) → ℤ) (row : ℕ)
        (newAssign : Fin V → Fin M) (t : TrainerState V E M Kv),
        row ∈ t.assignedRows → addRow treeGrid data row newAssign t = none) ∧
      (∀ (treeGrid : Fin E → Fin V × Fin V)
        (data : ℕ → (v : Fin V) → Fin (Kv v) → ℤ) (row : ℕ)
        (t : TrainerState V E M Kv),
        row ∉ t.assignedRows → removeRow treeGrid data row t = none) ∧
      ∀ (tbl : ServerTables V M Kv) (findEdge : Fin V → Fin V → ℕ)
        (sched : List (SchedEntry V)) (task : String)
        (data : (v : Fin V) → Fin (Kv v) → ℕ) (counts : Fin V → ℕ)
        (choose : (Fin M → ℝ) → Fin M)
        (mult : (v : Fin V) → ℕ → (Fin (Kv v) → ℝ) → (Fin (Kv v) → ℕ))
        (vertZero : Fin V → Fin M),
        task ≠ "logprob" → task ≠ "sample" →
        propagate tbl findEdge sched task data counts choose mult vertZero =
          Except.error ("Unknown task: " ++ task) := by
  refine ⟨fun treeGrid data row na t h => ?_, fun treeGrid data row t h => ?_,
    fun tbl findEdge sched task data counts choose mult vz h1 h2 => ?_⟩
  · rw [addRow, if_pos h]
  · rw [removeRow, if_neg h]
  · simp only [propagate, if_neg h1, if_neg h2]

/-- C6 witness: the three failures at concrete inputs. -/
theorem C6_contract_violations_fail_witness :
    (0 ∈ trainerRow0.assignedRows) ∧ (0 ∉ trainerEmpty.assignedRows) ∧
      ("predict" ≠ "logprob") ∧ ("predict" ≠ "sample") ∧
      addRow gridEmpty dataOne 0 (fun _ => 0) trainerRow0 = none ∧
      removeRow gridEmpty dataOne 0 trainerEmpty = none ∧
      propagate (serverTables zeroSS1) (fun _ _ => 0) [] "predict"
          (fun _ _ => 0) (fun _ => 0) (fun _ => 0) (fun _ _ _ _ => 0)
          (fun _ => 0) =
        Except.error ("Unknown task: " ++ "predict") :=
  ⟨by decide, by decide, by decide, by decide,
    (@C6_contract_violations_fail 1 0 1 KvOne).1 gridEmpty dataOne 0
      (fun _ => 0) trainerRow0 (by decide),
    (@C6_contract_violations_fail 1 0 1 KvOne).2.1 gridEmpty dataOne 0
      trainerEmpty (by decide),
    (@C6_contract_violations_fail 1 0 1 KvOne).2.2 (serverTables zeroSS1)
      (fun _ _ => 0) [] "predict" (fun _ _ => 0) (fun _ => 0) (fun _ => 0)
      (fun _ _ _ _ => 0) (fun _ => 0) (by decide) (by decide)⟩

/-- C7: for every well-formed snapshot, summing the corrected
feature-cluster joint over the category axis yields the vertex posterior
exactly, and every row of the latent table sums to 1 (exact arithmetic
over the rescaling formula of make_posterior). -/
theorem C7_posterior_marginal_consistency {V E M : ℕ} {Kv : Fin V → ℕ}
    {α : Type} [LinearOrderedField α] (ss : SuffStats V E M Kv)
    (hM : 0 < M) (v : Fin V) (hK : 0 < Kv v)
    (hvert : ∀ m, 0 ≤ ss.vert v m) (hfeat : ∀ c m, 0 ≤ ss.feat v c m) :
    (∀ m, (∑ c, (makePosterior α ss).observed_latent v c m) =
        (makePosterior α ss).latent v m) ∧
      (∑ m, (makePosterior α ss).latent v m) = 1 := by
  have hMpos : (0 : α) < (M : α) := by exact_mod_cast hM
  have hq : (0 : α) < 1 / 2 / (M : α) := by positivity
  constructor
  · intro m
    show (∑ c, ((1 : α) / 2 / (M : α) + (ss.feat v c m : α)) *
        ((makePosterior α ss).latent v m /
          ∑ c2, ((1 : α) / 2 / (M : α) + (ss.feat v c2 m : α)))) = _
    have hT : (0 : α) < ∑ c2, ((1 : α) / 2 / (M : α) + (ss.feat v c2 m : α)) := by
      have : Nonempty (Fin (Kv v)) := ⟨⟨0, hK⟩⟩
      refine Finset.sum_pos (fun c _ => ?_) Finset.univ_nonempty
      have : (0 : α) ≤ (ss.feat v c m : α) := by exact_mod_cast hfeat c m
      linarith
    rw [← Finset.sum_mul, div_eq_mul_inv ((makePosterior α ss).latent v m),
      ← mul_assoc, mul_comm
        (∑ c, ((1 : α) / 2 / (M : α) + (ss.feat v c m : α)))
        ((makePosterior α ss).latent v m),
      mul_assoc, mul_inv_cancel₀ (ne_of_gt hT), mul_one]
  · show (∑ m, ((1 : α) / 2 + (ss.vert v m : α)) /
        ∑ m2, ((1 : α) / 2 + (ss.vert v m2 : α))) = 1
    have hS : (0 : α) < ∑ m2, ((1 : α) / 2 + (ss.vert v m2 : α)) := by
      have : Nonempty (Fin M) := ⟨⟨0, hM⟩⟩
      refine Finset.sum_pos (fun m _ => ?_) Finset.univ_nonempty
      have : (0 : α) ≤ (ss.vert v m : α) := by exact_mod_cast hvert m
      linarith
    rw [← Finset.sum_div, div_self (ne_of_gt hS)]

/-- C7 witness: the theorem applied to the concrete all-zero snapshot over
the rationals. -/
theorem C7_posterior_marginal_consistency_witness :
    (0 < 1 ∧ 0 < KvOne 0 ∧ (∀ m, 0 ≤ zeroSS1.vert 0 m) ∧
        ∀ c m, 0 ≤ zeroSS1.feat 0 c m) ∧
      ((∀ m, (∑ c, (makePosterior ℚ zeroSS1).observed_latent 0 c m) =
          (makePosterior ℚ zeroSS1).latent 0 m) ∧
        (∑ m, (makePosterior ℚ zeroSS1).latent 0 m) = 1) := by
  refine ⟨⟨by decide, by decide, by decide, by decide⟩, ?_⟩
  exact C7_posterior_marginal_consistency zeroSS1 (by decide) 0 (by decide)
    (by decide) (by decide)

/-- C8: in the upward pass's evidence fold-in, the resulting state after
folding in all count units is the same for every interleaving order of
the units, while each unit uses the running totals incremented by all
previously folded units (the fold steps through polyaUnit, which reads
the current table and column sums and increments them for the next
unit). -/
theorem C8_polya_fold_order_invariant {C M : ℕ} {α : Type} [Field α]
    (data : Fin C → ℕ) (l : List (Fin C)) (s : PolyaState C M α)
    (h : l.Perm (unitList C data)) :
    polyaFold l s = polyaFold (unitList C data) s ∧
      ∀ (c : Fin C) (l2 : List (Fin C)) (s2 : PolyaState C M α),
        polyaFold (c :: l2) s2 = polyaFold l2 (polyaUnit c s2) :=
  ⟨polyaFold_perm h s, fun c l2 s2 => polyaFold_cons c l2 s2⟩

/-- C8 witness: a concrete interleaving of two categories' units over the
rationals. -/
theorem C8_polya_fold_order_invariant_witness :
    ([1, 0] : List (Fin 2)).Perm (unitList 2 ![1, 1]) ∧
      (polyaFold [1, 0] polyaEx = polyaFold (unitList 2 ![1, 1]) polyaEx ∧
        ∀ (c : Fin 2) (l2 : List (Fin 2)) (s2 : PolyaState 2 1 ℚ),
          polyaFold (c :: l2) s2 = polyaFold l2 (polyaUnit c s2)) :=
  ⟨by decide, C8_polya_fold_order_invariant ![1, 1] [1, 0] polyaEx (by decide)⟩

/-- C10: the trainer stores every feature column as signed 8-bit
integers: counts in [0, 127] are stored exactly, while a count of 128
wraps to -128, so the stored data and the feature tally after add_row
differ from the exact tally of the given counts. -/
theorem C10_int8_narrowing :
    (∀ col : ℕ → ℤ, (∀ r, 0 ≤ col r ∧ col r ≤ 127) →
        ∀ r, storedColumn col r = col r) ∧
      storedColumn (fun _ => 128) 0 = -128 ∧
      (updateTensors gridEmpty (fun _ _ => storedColumn (fun _ => 128) 0)
          (fun _ => 0) 1 zeroSS1).feat 0 ⟨0, Nat.one_pos⟩ 0 = -128 ∧
      (-128 : ℤ) ≠ 128 := by
  refine ⟨?_, by decide, by decide, by decide⟩
  intro col hcol r
  have h1 := (hcol r).1
  have h2 := (hcol r).2
  show (col r + 128) % 256 - 128 = col r
  omega

/-- C10 witness: the in-range clause applied to a concrete column. -/
theorem C10_int8_narrowing_witness :
    (∀ r : ℕ, (0 : ℤ) ≤ 5 ∧ (5 : ℤ) ≤ 127) ∧
      ∀ r, storedColumn (fun _ => 5) r = 5 := by
  refine ⟨fun _ => ⟨by decide, by decide⟩, ?_⟩
  exact C10_int8_narrowing.1 (fun _ => 5) fun _ =>
    ⟨(by decide : (0 : ℤ) ≤ 5), (by decide : (5 : ℤ) ≤ 127)⟩

end TreeCat
